import Mathlib

/-!
Verification of the `Dire` collection store (src/dire.js).

The store keeps an in-memory mapping from collection names to JSON record
sequences (`this.data`), a dirty set of names awaiting flush
(`this.modifiedCollections`), and persists each collection to the file
`<name>.json` inside one directory.

Shallow embedding choices:
* JSON values are the inductive `Json`.  The claims only involve
  JSON-serializable data, for which `JSON.stringify`/`JSON.parse` round-trip,
  so files store their parsed `Json` content directly.
* JavaScript objects / the directory are association lists (`Assoc`) with
  first-occurrence lookup; `Assoc.set` overwrites in place (JS objects keep
  the key position, the file system keeps the directory entry) and appends
  new keys at the end.
* A directory entry name is `Filename.json stem` when it ends in `.json`
  and `Filename.other s` otherwise.  This is a bijection on names:
  Node's `path.basename(f, ".json")` returns exactly `f` minus the suffix
  for every `f` ending in `.json` (including `basename ".json" ".json" = ""`),
  so a `.json` file name and its stem determine each other.
* The JS `Set` of dirty names is a duplicate-free list in insertion order;
  `Set.prototype.add` is the identity on present elements.
* Operations whose JS body throws a `TypeError` (method call on `undefined`
  or on a non-array value, `Array.prototype.find` with a non-function
  callback) return `Except.error JsError.typeError` and leave the state
  unchanged, which matches the source: each such throw happens before any
  mutation of `this.data` or the dirty set.
-/

/-- A parsed JSON value.  Numbers are modelled as integers: no claim about
this program depends on non-integral or IEEE-754 behaviour. -/
inductive Json where
  | null
  | bool (b : Bool)
  | num (n : Int)
  | str (s : String)
  | arr (xs : List Json)
  | obj (fields : List (String × Json))

/-- The single kind of runtime fault the embedded operations can raise
(JavaScript `TypeError`). -/
inductive JsError where
  | typeError
deriving DecidableEq

/-- A directory entry name: `json stem` stands for the name `stem ++ ".json"`,
`other s` for any name not ending in `.json`. -/
inductive Filename where
  | json (stem : String)
  | other (s : String)
deriving DecidableEq

/-- Association lists with first-occurrence lookup: the model of JS object
property tables and of the directory (file name to parsed content). -/
abbrev Assoc (κ α : Type) : Type := List (κ × α)

namespace Assoc

variable {κ α : Type} [DecidableEq κ]

/-- Property lookup `o[k]`: first entry with the given key. -/
def get? : Assoc κ α → κ → Option α
  | [], _ => none
  | (k', v) :: rest, k => if k' = k then some v else get? rest k

/-- Property write `o[k] = v`: overwrite the entry holding the key in
place (a JS object holds at most one entry per key), or append a new
entry at the end when the key is absent. -/
def set : Assoc κ α → κ → α → Assoc κ α
  | [], k, v => [(k, v)]
  | (k', v') :: rest, k, v =>
      if k' = k then (k, v) :: rest else (k', v') :: set rest k v

/-- Property removal `delete o[k]` / file removal `unlink` (removing an
absent key is a no-op, matching `unlink`'s caught failure). -/
def erase : Assoc κ α → κ → Assoc κ α
  | [], _ => []
  | (k', v') :: rest, k =>
      if k' = k then erase rest k else (k', v') :: erase rest k

/-- Assignment `o[k] = v` when `v` may be `undefined`: assigning `undefined` behaves,
for every operation of this program, like removing the property. -/
def setOpt (l : Assoc κ α) (k : κ) : Option α → Assoc κ α
  | some v => set l k v
  | none => erase l k

/-- The keys, in order. -/
def keys (l : Assoc κ α) : List κ := l.map Prod.fst

end Assoc

/-- The directory: parsed content of each file. -/
abbrev FS : Type := Assoc Filename Json

/-- JavaScript truthiness of a JSON value (`NaN` is not representable in
the integer number model). -/
def jsTruthy : Json → Bool
  | .null => false
  | .bool b => b
  | .num n => decide (n ≠ 0)
  | .str s => decide (s ≠ "")
  | .arr _ => true
  | .obj _ => true

/-- Whether a value is a JSON object — the shape the spec's data model
gives to records. -/
def Json.isObj : Json → Bool
  | .obj _ => true
  | _ => false

/-- JavaScript property read `c[k]` on a parsed JSON value `c`:
`TypeError` on `null`, key lookup on objects, canonical numeric index on
arrays, `undefined` otherwise. -/
def jsIndex : Json → String → Except JsError (Option Json)
  | .null, _ => .error .typeError
  | .obj fields, k => .ok (Assoc.get? fields k)
  | .arr xs, k =>
      .ok (match k.toNat? with
           | some i => xs.get? i
           | none => none)
  | _, _ => .ok none

/-- The non-faulting value of `jsIndex` (used to state what a file
contributes to the store; coincides with `jsIndex` away from `null`). -/
def jsIndexD (c : Json) (k : String) : Option Json :=
  match jsIndex c k with
  | .ok v => v
  | .error _ => none

/-- The in-memory state of a `Dire` instance: `data` is the collection
mapping, `modifiedCollections` the dirty set (insertion-ordered,
duplicate-free list), `isLoaded` the loaded flag. -/
structure Dire where
  data : Assoc String Json
  modifiedCollections : List String
  isLoaded : Bool

/-- A freshly constructed instance, before its directory scan. -/
def initDire : Dire :=
  { data := [], modifiedCollections := [], isLoaded := false }

/-- Embedding of `markCollectionAsModified`: `this.modifiedCollections.add(name)` —
idempotent, insertion order preserved. -/
def Dire.markCollectionAsModified (d : Dire) (name : String) : Dire :=
  { d with
    modifiedCollections :=
      if name ∈ d.modifiedCollections then d.modifiedCollections
      else d.modifiedCollections ++ [name] }

/-- The body of `load`'s loop over `fs.readdir` results: for each file
ending in `.json`, parse it and install `fileData[stem]` under the stem;
a thrown `TypeError` (`null` content) aborts the whole loop, leaving the
store partially populated (`false` flag). -/
def loadFiles : List (Filename × Json) → Assoc String Json →
    Assoc String Json × Bool
  | [], data => (data, true)
  | (.json stem, content) :: rest, data =>
      match jsIndex content stem with
      | .error _ => (data, false)
      | .ok v => loadFiles rest (Assoc.setOpt data stem v)
  | (.other _, _) :: rest, data => loadFiles rest data

/-- Embedding of `load()`: scan the directory, install every `.json` file's wrapped
value under its stem; on success set `isLoaded`. -/
def Dire.load (d : Dire) (fs : FS) : Dire :=
  let r := loadFiles fs d.data
  { d with data := r.1, isLoaded := r.2 || d.isLoaded }

/-- The serialized file content `JSON.stringify({ [name]: data[name] })`:
when the collection is absent the property is `undefined` and
`JSON.stringify` omits it, producing `{}`. -/
def wrapper (data : Assoc String Json) (name : String) : Json :=
  .obj (match Assoc.get? data name with
        | some v => [(name, v)]
        | none => [])

/-- The body of `save`'s loop over the dirty set: write each collection's
wrapper to `<name>.json`; a write failure (per the oracle `writeOk`)
throws, aborting the loop — files already written stay written, the
remaining names are not attempted (`false` flag). -/
def saveFiles (data : Assoc String Json) (writeOk : String → Bool) :
    List String → FS → FS × Bool
  | [], fs => (fs, true)
  | name :: rest, fs =>
      if writeOk name then
        saveFiles data writeOk rest
          (Assoc.set fs (.json name) (wrapper data name))
      else (fs, false)

/-- Embedding of `save()`: flush every dirty collection in iteration order; the dirty
set is cleared only when the loop ran to completion — the `try` block
wraps the whole loop, so the first failure skips `clear()`. -/
def Dire.save (d : Dire) (fs : FS) (writeOk : String → Bool) : Dire × FS :=
  let r := saveFiles d.data writeOk d.modifiedCollections fs
  (if r.2 then { d with modifiedCollections := [] } else d, r.1)

/-- Embedding of `add(name, items)`: wholesale replacement, then mark dirty.  The
source defaults `items` to `[]`. -/
def Dire.add (d : Dire) (name : String) (items : Json := .arr []) : Dire :=
  { (d.markCollectionAsModified name) with
    data := Assoc.set d.data name items }

/-- Embedding of `drop(name)`: remove the collection from memory and request
`fs.unlink` of its file.  The catch swallows every unlink error — a
missing file, but equally any other failure — so the oracle `unlinkOk`
says whether the file system actually removed the entry (when the file
is absent the two oracle values coincide: erasing an absent key is a
no-op).  The dirty set is left untouched either way. -/
def Dire.drop (d : Dire) (fs : FS) (name : String) (unlinkOk : Bool) :
    Dire × FS :=
  ({ d with data := Assoc.erase d.data name },
   if unlinkOk then Assoc.erase fs (.json name) else fs)

/-- Embedding of `insert(name, items)`: normalize `items` to an array, push each
element.  When the collection is missing or not an array the first
`collection.push` throws — unless the normalized list is empty, in which
case the loop body never runs and the name is still marked dirty. -/
def Dire.insert (d : Dire) (name : String) (items : Json) :
    Except JsError Dire :=
  let norm : List Json :=
    match items with
    | .arr l => l
    | j => [j]
  match Assoc.get? d.data name with
  | some (.arr coll) =>
      .ok { (d.markCollectionAsModified name) with
            data := Assoc.set d.data name (.arr (coll ++ norm)) }
  | _ =>
      if norm.isEmpty then .ok (d.markCollectionAsModified name)
      else .error .typeError

/-- Embedding of `update(name, filterFunction, updateFunction)`: mutate matching
records in place (`filterFunction` defaults to match-all), then mark
dirty; `collection.forEach` throws on a missing or non-array value. -/
def Dire.update (d : Dire) (name : String) (pred : Option (Json → Bool))
    (mutator : Json → Json) : Except JsError Dire :=
  match Assoc.get? d.data name with
  | some (.arr coll) =>
      let p := pred.getD (fun _ => true)
      .ok { (d.markCollectionAsModified name) with
            data := Assoc.set d.data name
              (.arr (coll.map (fun r => if p r then mutator r else r))) }
  | _ => .error .typeError

/-- Embedding of `find(name, filterFunction)`: `collection.filter(filterFunction)`,
default match-all; throws on a missing or non-array collection. -/
def Dire.find (d : Dire) (name : String) (pred : Option (Json → Bool)) :
    Except JsError (List Json) :=
  match Assoc.get? d.data name with
  | some (.arr coll) => .ok (coll.filter (pred.getD (fun _ => true)))
  | _ => .error .typeError

/-- Embedding of `findOne(name, filterFunction)`: `collection.find(filterFunction) || null`.
There is no default: `Array.prototype.find` checks its callback before
iterating, so an omitted predicate throws even on an empty array.  The
`|| null` coerces a falsy match to `null`. -/
def Dire.findOne (d : Dire) (name : String) (pred : Option (Json → Bool)) :
    Except JsError (Option Json) :=
  match Assoc.get? d.data name with
  | some (.arr coll) =>
      match pred with
      | none => .error .typeError
      | some p =>
          .ok (match coll.find? p with
               | some v => if jsTruthy v then some v else none
               | none => none)
  | _ => .error .typeError

/-- Embedding of `delete(name, filterFunction)`: keep the records NOT matching
(`filterFunction` defaults to match-all), then mark dirty; throws on a
missing or non-array collection. -/
def Dire.delete (d : Dire) (name : String) (pred : Option (Json → Bool)) :
    Except JsError Dire :=
  match Assoc.get? d.data name with
  | some (.arr coll) =>
      let p := pred.getD (fun _ => true)
      .ok { (d.markCollectionAsModified name) with
            data := Assoc.set d.data name
              (.arr (coll.filter (fun r => !p r))) }
  | _ => .error .typeError
/-! ## Association-list lemmas -/

namespace Assoc

variable {κ α : Type} [DecidableEq κ]

theorem get?_eq_none_iff (l : Assoc κ α) (k : κ) :
    get? l k = none ↔ k ∉ keys l := by
  induction l with
  | nil => simp [get?, keys]
  | cons p rest ih =>
    obtain ⟨k', v⟩ := p
    by_cases h : k' = k
    · subst h
      simp [get?, keys]
    · simp [get?, keys, h, ih, Ne.symm h]

theorem get?_set_self (l : Assoc κ α) (k : κ) (v : α) :
    get? (set l k v) k = some v := by
  induction l with
  | nil => simp [set, get?]
  | cons p rest ih =>
    obtain ⟨k', v'⟩ := p
    by_cases h : k' = k
    · simp [set, h, get?]
    · simp [set, h, get?, ih]

theorem get?_set_ne (l : Assoc κ α) (k m : κ) (v : α) (hmk : m ≠ k) :
    get? (set l k v) m = get? l m := by
  induction l with
  | nil => simp [set, get?, Ne.symm hmk]
  | cons p rest ih =>
    obtain ⟨k', v'⟩ := p
    by_cases h : k' = k
    · subst h
      simp [set, get?, Ne.symm hmk]
    · by_cases h2 : k' = m
      · simp [set, h, get?, h2, hmk]
      · simp [set, h, get?, h2, ih]

theorem get?_erase_self (l : Assoc κ α) (k : κ) :
    get? (erase l k) k = none := by
  induction l with
  | nil => rfl
  | cons p rest ih =>
    obtain ⟨k', v'⟩ := p
    by_cases h : k' = k
    · simp [erase, h, ih]
    · simp [erase, h, get?, ih]

theorem get?_erase_ne (l : Assoc κ α) (k m : κ) (hmk : m ≠ k) :
    get? (erase l k) m = get? l m := by
  induction l with
  | nil => rfl
  | cons p rest ih =>
    obtain ⟨k', v'⟩ := p
    by_cases h : k' = k
    · subst h
      simp [erase, get?, Ne.symm hmk, ih]
    · by_cases h2 : k' = m
      · simp [erase, get?, h, h2, hmk]
      · simp [erase, get?, h, h2, ih]

theorem erase_sublist (l : Assoc κ α) (k : κ) :
    List.Sublist (erase l k) l := by
  induction l with
  | nil => exact List.Sublist.refl []
  | cons p rest ih =>
    obtain ⟨k', v'⟩ := p
    by_cases h : k' = k
    · simpa [erase, h] using ih.cons (k', v')
    · simpa [erase, h] using ih.cons₂ (k', v')

theorem setOpt_get?_self (l : Assoc κ α) (k : κ) (v? : Option α) :
    get? (setOpt l k v?) k = v? := by
  cases v? with
  | some v => exact get?_set_self l k v
  | none => exact get?_erase_self l k

theorem setOpt_get?_ne (l : Assoc κ α) (k m : κ) (v? : Option α)
    (hmk : m ≠ k) : get? (setOpt l k v?) m = get? l m := by
  cases v? with
  | some v => exact get?_set_ne l k m v hmk
  | none => exact get?_erase_ne l k m hmk

theorem mem_set (l : Assoc κ α) (k : κ) (v : α) (p : κ × α)
    (hp : p ∈ set l k v) : p ∈ l ∨ p = (k, v) := by
  induction l with
  | nil => simp [set] at hp; exact Or.inr hp
  | cons q rest ih =>
    obtain ⟨k', v'⟩ := q
    by_cases h : k' = k
    · simp only [set, if_pos h, List.mem_cons] at hp
      rcases hp with hp | hp
      · exact Or.inr hp
      · exact Or.inl (List.mem_cons_of_mem _ hp)
    · simp only [set, if_neg h, List.mem_cons] at hp
      rcases hp with hp | hp
      · exact Or.inl (hp ▸ List.mem_cons_self _ _)
      · rcases ih hp with h2 | h2
        · exact Or.inl (List.mem_cons_of_mem _ h2)
        · exact Or.inr h2

theorem mem_keys_set (l : Assoc κ α) (k : κ) (v : α) (m : κ)
    (hm : m ∈ keys (set l k v)) : m ∈ keys l ∨ m = k := by
  simp only [keys, List.mem_map] at hm
  obtain ⟨p, hp, hfst⟩ := hm
  rcases mem_set l k v p hp with h | h
  · exact Or.inl (by simp only [keys, List.mem_map]; exact ⟨p, h, hfst⟩)
  · subst h
    exact Or.inr hfst.symm

theorem keys_set_nodup (l : Assoc κ α) (k : κ) (v : α)
    (h : (keys l).Nodup) : (keys (set l k v)).Nodup := by
  induction l with
  | nil => simp [set, keys]
  | cons p rest ih =>
    obtain ⟨k', v'⟩ := p
    simp only [keys, List.map_cons, List.nodup_cons] at h
    by_cases hk : k' = k
    · subst hk
      simpa [set, keys] using h
    · have ih2 := ih h.2
      simp only [set, if_neg hk, keys, List.map_cons, List.nodup_cons]
      refine ⟨fun hmem => ?_, ih2⟩
      rcases mem_keys_set rest k v k' hmem with h2 | h2
      · exact h.1 h2
      · exact hk h2

theorem keys_erase_nodup (l : Assoc κ α) (k : κ)
    (h : (keys l).Nodup) : (keys (erase l k)).Nodup := by
  exact (((erase_sublist l k).map Prod.fst).nodup h :)

theorem keys_setOpt_nodup (l : Assoc κ α) (k : κ) (v? : Option α)
    (h : (keys l).Nodup) : (keys (setOpt l k v?)).Nodup := by
  cases v? with
  | some v => exact keys_set_nodup l k v h
  | none => exact keys_erase_nodup l k h

theorem mem_erase (l : Assoc κ α) (k : κ) (p : κ × α)
    (hp : p ∈ erase l k) : p ∈ l :=
  (erase_sublist l k).mem hp

theorem mem_setOpt (l : Assoc κ α) (k : κ) (v? : Option α) (p : κ × α)
    (hp : p ∈ setOpt l k v?) : p ∈ l ∨ v? = some p.2 := by
  cases v? with
  | some v =>
    rcases mem_set l k v p hp with h | h
    · exact Or.inl h
    · exact Or.inr (by rw [h])
  | none => exact Or.inl (mem_erase l k p hp)

end Assoc

/-- Membership in the dirty set after `markCollectionAsModified`. -/
theorem mem_markCollectionAsModified (d : Dire) (name x : String) :
    x ∈ (d.markCollectionAsModified name).modifiedCollections ↔
      x ∈ d.modifiedCollections ∨ x = name := by
  unfold Dire.markCollectionAsModified
  by_cases h : name ∈ d.modifiedCollections
  · simp only [if_pos h]
    constructor
    · exact Or.inl
    · rintro (hx | rfl)
      · exact hx
      · exact h
  · simp [if_neg h]

/-! ## Helper lemmas for the query operations -/

/-- The function `List.filter` is the greatest sublist all of whose elements satisfy
the predicate. -/
theorem sublist_filter_max {α : Type} (p : α → Bool) (s l : List α)
    (hs : List.Sublist s l) (hall : ∀ x ∈ s, p x = true) :
    List.Sublist s (l.filter p) := by
  have hself : s.filter p = s := List.filter_eq_self.mpr hall
  exact hself ▸ hs.filter p

/-- The function `List.find?` returns the head of the matching suffix when everything
before it fails the predicate. -/
theorem find?_eq_some_of_split {α : Type} (p : α → Bool) (l1 : List α)
    (v : α) (l2 : List α) (h1 : ∀ x ∈ l1, p x = false) (hv : p v = true) :
    List.find? p (l1 ++ v :: l2) = some v := by
  induction l1 with
  | nil => simp [List.find?_cons, hv]
  | cons a rest ih =>
    have ha : p a = false := h1 a (by simp)
    rw [List.cons_append, List.find?_cons, ha]
    exact ih (fun x hx => h1 x (List.mem_cons_of_mem a hx))

/-- JSON objects — the spec's records — are truthy. -/
theorem jsTruthy_of_isObj (x : Json) (h : x.isObj = true) :
    jsTruthy x = true := by
  cases x <;> simp_all [Json.isObj, jsTruthy]

/-! ## Claims about the query operations -/

/-- C5: for every existing collection and predicate, `find` returns
exactly the subsequence of the collection's records satisfying the
predicate, in original order (stated as: a sublist whose members all
satisfy it and that contains every such sublist), and `find` with no
predicate returns all records. -/
theorem c5_find_filters (d : Dire) (name : String) (coll : List Json)
    (p : Json → Bool) (h : Assoc.get? d.data name = some (.arr coll)) :
    (∃ r, d.find name (some p) = .ok r ∧ List.Sublist r coll ∧
       (∀ x ∈ r, p x = true) ∧
       (∀ s, List.Sublist s coll → (∀ x ∈ s, p x = true) →
          List.Sublist s r)) ∧
    d.find name none = .ok coll := by
  constructor
  · refine ⟨coll.filter p, ?_, List.filter_sublist coll, ?_, ?_⟩
    · simp only [Dire.find, h]
      rfl
    · intro x hx
      exact List.of_mem_filter hx
    · intro s hs hall
      exact sublist_filter_max p s coll hs hall
  · simp only [Dire.find, h, Option.getD]
    simp

/-- C5 witness: `find` with no predicate on a concrete two-record
collection returns both records. -/
theorem c5_find_filters_witness :
    (Dire.mk [("users", Json.arr [Json.num 1, Json.num 2])] [] true).find
      "users" none = .ok [Json.num 1, Json.num 2] :=
  (c5_find_filters (Dire.mk [("users", Json.arr [Json.num 1, Json.num 2])] [] true)
    "users" [Json.num 1, Json.num 2] (fun _ => false) rfl).2

/-- C6: for every existing collection and predicate, `delete` replaces
the collection with exactly the subsequence of records NOT satisfying the
predicate (survivors in order, as observed by a subsequent `find`), and
`delete` with no predicate removes every record. -/
theorem c6_delete_complement (d : Dire) (name : String) (coll : List Json)
    (p : Json → Bool) (h : Assoc.get? d.data name = some (.arr coll)) :
    (∃ d' r, d.delete name (some p) = .ok d' ∧
       d'.find name none = .ok r ∧ List.Sublist r coll ∧
       (∀ x ∈ r, p x = false) ∧
       (∀ s, List.Sublist s coll → (∀ x ∈ s, p x = false) →
          List.Sublist s r)) ∧
    (∃ d'', d.delete name none = .ok d'' ∧ d''.find name none = .ok []) := by
  constructor
  · refine ⟨{ (d.markCollectionAsModified name) with
              data := Assoc.set d.data name
                (.arr (coll.filter (fun r => !p r))) },
            coll.filter (fun r => !p r), ?_, ?_, List.filter_sublist coll,
            ?_, ?_⟩
    · simp only [Dire.delete, h]
      rfl
    · simp only [Dire.find, Assoc.get?_set_self]
      simp
    · intro x hx
      have := List.of_mem_filter hx
      simpa using this
    · intro s hs hall
      exact sublist_filter_max _ s coll hs (by simpa using hall)
  · refine ⟨{ (d.markCollectionAsModified name) with
              data := Assoc.set d.data name
                (.arr (coll.filter (fun r => !(fun _ => true) r))) },
            ?_, ?_⟩
    · simp only [Dire.delete, h, Option.getD]
    · simp only [Dire.find, Assoc.get?_set_self]
      simp

/-- C6 witness: deleting with the default match-all predicate leaves an
empty collection. -/
theorem c6_delete_complement_witness :
    ∃ d'' , (Dire.mk [("users", Json.arr [Json.num 7])] [] true).delete
        "users" none = .ok d'' ∧ d''.find "users" none = .ok [] :=
  (c6_delete_complement (Dire.mk [("users", Json.arr [Json.num 7])] [] true)
    "users" [Json.num 7] (fun _ => true) rfl).2

/-- C7: for every existing collection whose elements are records (JSON
objects, per the spec's data model) and predicate, `findOne` returns the
first record in collection order satisfying the predicate, and a null
result when none does. -/
theorem c7_findOne_first (d : Dire) (name : String) (coll : List Json)
    (p : Json → Bool) (h : Assoc.get? d.data name = some (.arr coll))
    (hrec : ∀ x ∈ coll, x.isObj = true) :
    (∀ l1 v l2, coll = l1 ++ v :: l2 → (∀ x ∈ l1, p x = false) →
        p v = true → d.findOne name (some p) = .ok (some v)) ∧
    ((∀ x ∈ coll, p x = false) → d.findOne name (some p) = .ok none) := by
  constructor
  · intro l1 v l2 hsplit h1 hv
    have hobj : v.isObj = true := hrec v (by rw [hsplit]; simp)
    simp only [Dire.findOne, h, hsplit,
      find?_eq_some_of_split p l1 v l2 h1 hv, jsTruthy_of_isObj v hobj,
      if_true]
  · intro hnone
    have : coll.find? p = none := by
      rw [List.find?_eq_none]
      intro x hx
      simp [hnone x hx]
    simp only [Dire.findOne, h, this]

/-- C7 witness: the first of two records matching the predicate is
returned. -/
theorem c7_findOne_first_witness :
    (Dire.mk [("users", Json.arr [Json.obj [("age", Json.num 29)],
        Json.obj [("age", Json.num 30)]])] [] true).findOne
      "users" (some (fun _ => true)) =
      .ok (some (Json.obj [("age", Json.num 29)])) :=
  (c7_findOne_first
      (Dire.mk [("users", Json.arr [Json.obj [("age", Json.num 29)],
        Json.obj [("age", Json.num 30)]])] [] true)
      "users" [Json.obj [("age", Json.num 29)], Json.obj [("age", Json.num 30)]]
      (fun _ => true) rfl
      (by intro x hx
          simp only [List.mem_cons, List.not_mem_nil, or_false] at hx
          rcases hx with rfl | rfl <;> rfl)).1
    [] (Json.obj [("age", Json.num 29)]) [Json.obj [("age", Json.num 30)]]
    rfl (by intro x hx; cases hx) rfl

/-- C9: `findOne` provides no default predicate — on an existing,
non-empty collection, calling it without a predicate faults with a
`TypeError` — while `find`, `update` and `delete` default to match-all
and succeed. -/
theorem c9_findOne_no_default (d : Dire) (name : String)
    (coll : List Json) (mutator : Json → Json)
    (h : Assoc.get? d.data name = some (.arr coll)) (hne : coll ≠ []) :
    d.findOne name none = .error .typeError ∧
    d.find name none = .ok coll ∧
    (∃ d1, d.update name none mutator = .ok d1) ∧
    (∃ d2, d.delete name none = .ok d2) := by
  refine ⟨?_, ?_, ?_, ?_⟩
  · simp only [Dire.findOne, h]
  · simp only [Dire.find, h, Option.getD]
    simp
  · simp only [Dire.update, h]
    exact ⟨_, rfl⟩
  · simp only [Dire.delete, h]
    exact ⟨_, rfl⟩

/-- C9 witness: on a concrete one-record collection, `findOne` without a
predicate is a `TypeError`. -/
theorem c9_findOne_no_default_witness :
    (Dire.mk [("users", Json.arr [Json.obj []])] [] true).findOne
      "users" none = .error .typeError :=
  (c9_findOne_no_default (Dire.mk [("users", Json.arr [Json.obj []])] [] true)
    "users" [Json.obj []] id rfl (by simp)).1

/-- C10: each mutation operation (`add`, `insert`, `update`, `delete`) on
collection `n` leaves every other collection's record sequence exactly as
it was, and the dirty set gains at most the single name `n`. -/
theorem c10_mutation_frame (d : Dire) (n m : String) (items : Json)
    (p : Option (Json → Bool)) (mutator : Json → Json) (hm : m ≠ n) :
    (Assoc.get? (d.add n items).data m = Assoc.get? d.data m ∧
       (∀ x, x ∈ (d.add n items).modifiedCollections ↔
          x ∈ d.modifiedCollections ∨ x = n)) ∧
    (∀ d', d.insert n items = .ok d' →
       Assoc.get? d'.data m = Assoc.get? d.data m ∧
       (∀ x, x ∈ d'.modifiedCollections ↔
          x ∈ d.modifiedCollections ∨ x = n)) ∧
    (∀ d', d.update n p mutator = .ok d' →
       Assoc.get? d'.data m = Assoc.get? d.data m ∧
       (∀ x, x ∈ d'.modifiedCollections ↔
          x ∈ d.modifiedCollections ∨ x = n)) ∧
    (∀ d', d.delete n p = .ok d' →
       Assoc.get? d'.data m = Assoc.get? d.data m ∧
       (∀ x, x ∈ d'.modifiedCollections ↔
          x ∈ d.modifiedCollections ∨ x = n)) := by
  refine ⟨⟨?_, ?_⟩, ?_, ?_, ?_⟩
  · exact Assoc.get?_set_ne d.data n m items hm
  · exact fun x => mem_markCollectionAsModified d n x
  · intro d' h'
    simp only [Dire.insert] at h'
    split at h'
    · cases h'
      exact ⟨Assoc.get?_set_ne d.data n m _ hm,
             fun x => mem_markCollectionAsModified d n x⟩
    · split at h'
      · cases h'
        exact ⟨rfl, fun x => mem_markCollectionAsModified d n x⟩
      · cases h'
  · intro d' h'
    simp only [Dire.update] at h'
    split at h'
    · cases h'
      exact ⟨Assoc.get?_set_ne d.data n m _ hm,
             fun x => mem_markCollectionAsModified d n x⟩
    · cases h'
  · intro d' h'
    simp only [Dire.delete] at h'
    split at h'
    · cases h'
      exact ⟨Assoc.get?_set_ne d.data n m _ hm,
             fun x => mem_markCollectionAsModified d n x⟩
    · cases h'

/-- C10 witness: adding to collection `a` leaves collection `b` intact
and dirties only `a`. -/
theorem c10_mutation_frame_witness :
    Assoc.get? ((Dire.mk [("a", Json.arr []), ("b", Json.arr [Json.num 5])]
        [] true).add "a" (Json.arr [Json.num 1])).data "b" =
      Assoc.get? [("a", Json.arr []), ("b", Json.arr [Json.num 5])] "b" ∧
    (∀ x, x ∈ ((Dire.mk [("a", Json.arr []), ("b", Json.arr [Json.num 5])]
        [] true).add "a" (Json.arr [Json.num 1])).modifiedCollections ↔
       x ∈ ([] : List String) ∨ x = "a") :=
  (c10_mutation_frame
    (Dire.mk [("a", Json.arr []), ("b", Json.arr [Json.num 5])] [] true)
    "a" "b" (Json.arr [Json.num 1]) none id (by decide)).1

/-! ## Lemmas about the flush loop -/

/-- Keys whose name is written by no element of the loop are untouched,
whether or not the loop completes. -/
theorem saveFiles_untouched (data : Assoc String Json)
    (writeOk : String → Bool) (names : List String) (fs : FS)
    (k : Filename) (hk : ∀ x ∈ names, k ≠ Filename.json x) :
    Assoc.get? (saveFiles data writeOk names fs).1 k = Assoc.get? fs k := by
  induction names generalizing fs with
  | nil => rfl
  | cons n rest ih =>
    simp only [saveFiles]
    by_cases hw : writeOk n = true
    · rw [if_pos hw,
        ih _ (fun x hx => hk x (List.mem_cons_of_mem n hx)),
        Assoc.get?_set_ne fs _ k _ (hk n (List.mem_cons_self n rest))]
    · rw [if_neg hw]

/-- When the loop completes, every processed name's file holds the
wrapper of its current in-memory value. -/
theorem saveFiles_success_lookup (data : Assoc String Json)
    (writeOk : String → Bool) (names : List String) (fs : FS)
    (hsucc : (saveFiles data writeOk names fs).2 = true)
    (m : String) (hm : m ∈ names) :
    Assoc.get? (saveFiles data writeOk names fs).1 (.json m) =
      some (wrapper data m) := by
  induction names generalizing fs with
  | nil => cases hm
  | cons n rest ih =>
    by_cases hw : writeOk n = true
    · simp only [saveFiles, if_pos hw] at hsucc ⊢
      by_cases hmr : m ∈ rest
      · exact ih _ hsucc hmr
      · have hmn : m = n := by
          rcases List.mem_cons.mp hm with h | h
          · exact h
          · exact absurd h hmr
        subst hmn
        rw [saveFiles_untouched data writeOk rest _ _
          (fun x hx h => hmr (by cases Filename.json.inj h; exact hx))]
        exact Assoc.get?_set_self fs _ _
    · simp only [saveFiles, if_neg hw] at hsucc
      cases hsucc

/-- The loop completes when every write succeeds. -/
theorem saveFiles_all_ok (data : Assoc String Json)
    (writeOk : String → Bool) (names : List String) (fs : FS)
    (h : ∀ x ∈ names, writeOk x = true) :
    (saveFiles data writeOk names fs).2 = true := by
  induction names generalizing fs with
  | nil => rfl
  | cons n rest ih =>
    simp only [saveFiles, if_pos (h n (List.mem_cons_self n rest))]
    exact ih _ (fun x hx => h x (List.mem_cons_of_mem n hx))

/-- The loop fails as soon as it meets a name whose write fails. -/
theorem saveFiles_fails (data : Assoc String Json)
    (writeOk : String → Bool) (names : List String) (fs : FS)
    (h : ∃ n ∈ names, writeOk n = false) :
    (saveFiles data writeOk names fs).2 = false := by
  induction names generalizing fs with
  | nil => simp at h
  | cons n rest ih =>
    obtain ⟨x, hx, hxf⟩ := h
    by_cases hw : writeOk n = true
    · simp only [saveFiles, if_pos hw]
      rcases List.mem_cons.mp hx with h2 | h2
      · subst h2; rw [hw] at hxf; cases hxf
      · exact ih _ ⟨x, h2, hxf⟩
    · simp only [saveFiles, if_neg hw]

/-- Splitting the loop at a prefix of successful writes. -/
theorem saveFiles_append (data : Assoc String Json)
    (writeOk : String → Bool) (l1 l2 : List String) (fs : FS)
    (h1 : ∀ x ∈ l1, writeOk x = true) :
    saveFiles data writeOk (l1 ++ l2) fs =
      saveFiles data writeOk l2 (saveFiles data writeOk l1 fs).1 := by
  induction l1 generalizing fs with
  | nil => rfl
  | cons n rest ih =>
    simp only [List.cons_append, saveFiles,
      if_pos (h1 n (List.mem_cons_self n rest))]
    exact ih _ (fun x hx => h1 x (List.mem_cons_of_mem n hx))

/-! ## Claim C2: flush error handling -/

/-- C2 counterexample: with dirty set `["a", "b"]` (iterated in that
order) and a write failure on `a`, the claim as stated fails on the code:
`b` is never flushed (its file is absent afterwards) and the dirty set is
not cleared. -/
theorem c2_counterexample :
    ((Dire.mk [("a", Json.arr []), ("b", Json.arr [])] ["a", "b"]
        true).save [] (fun s => !(s == "a"))).1.modifiedCollections ≠ [] ∧
    Assoc.get? ((Dire.mk [("a", Json.arr []), ("b", Json.arr [])]
        ["a", "b"] true).save [] (fun s => !(s == "a"))).2
      (.json "b") = none := by
  constructor
  · intro h
    cases h
  · rfl

/-- C2 amended: a write failure aborts the flush loop — the names after
the failing one are not flushed and the dirty set is left unchanged; the
dirty set is cleared only when every flush succeeds, in which case every
dirty collection's file holds its current in-memory value. -/
theorem c2_flush_abort_semantics (d : Dire) (fs : FS)
    (writeOk : String → Bool) :
    ((∀ x ∈ d.modifiedCollections, writeOk x = true) →
       (d.save fs writeOk).1.modifiedCollections = [] ∧
       ∀ m ∈ d.modifiedCollections,
         Assoc.get? (d.save fs writeOk).2 (.json m) =
           some (wrapper d.data m)) ∧
    (∀ l1 n l2, d.modifiedCollections = l1 ++ n :: l2 →
       (∀ x ∈ l1, writeOk x = true) → writeOk n = false →
       (d.save fs writeOk).1 = d ∧
       ∀ m ∈ l2, m ∉ l1 →
         Assoc.get? (d.save fs writeOk).2 (.json m) =
           Assoc.get? fs (.json m)) := by
  constructor
  · intro hall
    have hsucc := saveFiles_all_ok d.data writeOk d.modifiedCollections fs hall
    constructor
    · simp only [Dire.save, hsucc, if_true]
    · intro m hm
      simp only [Dire.save]
      exact saveFiles_success_lookup d.data writeOk d.modifiedCollections
        fs hsucc m hm
  · intro l1 n l2 hsplit h1 hn
    have hfail : (saveFiles d.data writeOk d.modifiedCollections fs).2 = false := by
      apply saveFiles_fails
      exact ⟨n, by rw [hsplit]; simp, hn⟩
    constructor
    · simp only [Dire.save, hfail]
      rfl
    · intro m hm hml1
      simp only [Dire.save, hsplit]
      rw [saveFiles_append d.data writeOk l1 (n :: l2) fs h1]
      simp only [saveFiles, hn, Bool.false_eq_true, if_false]
      exact saveFiles_untouched d.data writeOk l1 fs _
        (fun x hx h => hml1 (by cases Filename.json.inj h; exact hx))

/-- C2 amended witness: failing the first dirty name concretely leaves
the instance (hence the dirty set) unchanged and the second name's file
unwritten. -/
theorem c2_flush_abort_semantics_witness :
    ((Dire.mk [("a", Json.arr []), ("b", Json.arr [])] ["a", "b"]
        true).save [] (fun s => !(s == "a"))).1 =
      Dire.mk [("a", Json.arr []), ("b", Json.arr [])] ["a", "b"] true ∧
    ∀ m ∈ ["b"], m ∉ ([] : List String) →
      Assoc.get? ((Dire.mk [("a", Json.arr []), ("b", Json.arr [])]
          ["a", "b"] true).save [] (fun s => !(s == "a"))).2 (.json m) =
        Assoc.get? ([] : FS) (.json m) :=
  (c2_flush_abort_semantics
      (Dire.mk [("a", Json.arr []), ("b", Json.arr [])] ["a", "b"] true)
      [] (fun s => !(s == "a"))).2
    [] "a" ["b"] rfl (by intro x hx; cases hx) rfl

/-! ## Lemmas about the directory scan -/

/-- A well-formed directory: no `.json` file whose parsed content is JSON
`null` (indexing into `null` throws, aborting the scan — the spec's
separately documented `LoadFailure` mode). -/
def CleanFS (fs : FS) : Prop :=
  ∀ s c, (Filename.json s, c) ∈ fs → c ≠ Json.null

/-- Away from `null`, the JS property read does not fault. -/
theorem jsIndex_ok (c : Json) (k : String) (hc : c ≠ .null) :
    jsIndex c k = .ok (jsIndexD c k) := by
  cases c
  · exact absurd rfl hc
  all_goals rfl

/-- On a well-formed directory with unique entry names the scan
completes, every collection with a file gets that file's wrapped value,
and every other collection keeps its previous in-memory value. -/
theorem loadFiles_spec (fs : List (Filename × Json))
    (data0 : Assoc String Json) (hc : CleanFS fs)
    (hn : (Assoc.keys fs).Nodup) :
    (loadFiles fs data0).2 = true ∧
    ∀ name, Assoc.get? (loadFiles fs data0).1 name =
      (match Assoc.get? fs (.json name) with
       | some c => jsIndexD c name
       | none => Assoc.get? data0 name) := by
  induction fs generalizing data0 with
  | nil => exact ⟨rfl, fun name => rfl⟩
  | cons p rest ih =>
    obtain ⟨f, c⟩ := p
    have hcr : CleanFS rest :=
      fun s' c' h => hc s' c' (List.mem_cons_of_mem _ h)
    have hcons : Assoc.keys ((f, c) :: rest) = f :: Assoc.keys rest := rfl
    rw [hcons] at hn
    have hnr : (Assoc.keys rest).Nodup := (List.nodup_cons.mp hn).2
    cases f with
    | other s =>
      obtain ⟨ih1, ih2⟩ := ih data0 hcr hnr
      refine ⟨ih1, fun name => ?_⟩
      have hhead : Assoc.get? ((Filename.other s, c) :: rest)
          (Filename.json name) = Assoc.get? rest (Filename.json name) := by
        simp [Assoc.get?]
      rw [show loadFiles ((Filename.other s, c) :: rest) data0 =
            loadFiles rest data0 from rfl, ih2 name, hhead]
    | json stem =>
      have hcnull : c ≠ .null := hc stem c (List.mem_cons_self _ _)
      have hstep : loadFiles ((Filename.json stem, c) :: rest) data0 =
          loadFiles rest (Assoc.setOpt data0 stem (jsIndexD c stem)) := by
        simp only [loadFiles, jsIndex_ok c stem hcnull]
      obtain ⟨ih1, ih2⟩ :=
        ih (Assoc.setOpt data0 stem (jsIndexD c stem)) hcr hnr
      refine ⟨by rw [hstep]; exact ih1, fun name => ?_⟩
      rw [hstep, ih2 name]
      by_cases hns : name = stem
      · subst hns
        have hnot : Filename.json name ∉ Assoc.keys rest :=
          (List.nodup_cons.mp hn).1
        have hrest : Assoc.get? rest (Filename.json name) = none :=
          (Assoc.get?_eq_none_iff rest _).mpr hnot
        have hhead : Assoc.get? ((Filename.json name, c) :: rest)
            (Filename.json name) = some c := by
          simp [Assoc.get?]
        rw [hrest, hhead]
        exact Assoc.setOpt_get?_self data0 name _
      · have hhead : Assoc.get? ((Filename.json stem, c) :: rest)
            (Filename.json name) = Assoc.get? rest (Filename.json name) := by
          have : Filename.json stem ≠ Filename.json name :=
            fun h => hns (Filename.json.inj h).symm
          simp [Assoc.get?, this]
        rw [hhead]
        cases hrl : Assoc.get? rest (Filename.json name) with
        | some c' => rfl
        | none => exact Assoc.setOpt_get?_ne data0 stem name _ hns

/-- Every entry of the flushed directory is an old entry or a written
wrapper. -/
theorem mem_saveFiles (data : Assoc String Json) (writeOk : String → Bool)
    (names : List String) (fs : FS) (p : Filename × Json)
    (hp : p ∈ (saveFiles data writeOk names fs).1) :
    p ∈ fs ∨ ∃ n, p = (Filename.json n, wrapper data n) := by
  induction names generalizing fs with
  | nil => exact Or.inl hp
  | cons n rest ih =>
    by_cases hw : writeOk n = true
    · simp only [saveFiles, if_pos hw] at hp
      rcases ih _ hp with h | h
      · rcases Assoc.mem_set fs _ _ p h with h2 | h2
        · exact Or.inl h2
        · exact Or.inr ⟨n, h2⟩
      · exact Or.inr h
    · simp only [saveFiles, if_neg hw] at hp
      exact Or.inl hp

/-- Flushing preserves directory well-formedness (wrappers are objects,
never `null`). -/
theorem saveFiles_clean (data : Assoc String Json)
    (writeOk : String → Bool) (names : List String) (fs : FS)
    (hc : CleanFS fs) : CleanFS (saveFiles data writeOk names fs).1 := by
  intro s c hmem
  rcases mem_saveFiles data writeOk names fs _ hmem with h | ⟨n, h⟩
  · exact hc s c h
  · have : c = wrapper data n := congrArg Prod.snd h
    subst this
    unfold wrapper
    cases Assoc.get? data n <;> intro h2 <;> cases h2

/-- Flushing preserves uniqueness of directory entry names. -/
theorem saveFiles_keys_nodup (data : Assoc String Json)
    (writeOk : String → Bool) (names : List String) (fs : FS)
    (hn : (Assoc.keys fs).Nodup) :
    (Assoc.keys (saveFiles data writeOk names fs).1).Nodup := by
  induction names generalizing fs with
  | nil => exact hn
  | cons n rest ih =>
    by_cases hw : writeOk n = true
    · simp only [saveFiles, if_pos hw]
      exact ih _ (Assoc.keys_set_nodup fs _ _ hn)
    · simp only [saveFiles, if_neg hw]
      exact hn

/-! ## Claim C1: persistence round trip -/

/-- C1: on a well-formed directory (unique entry names, no file whose
content is JSON `null` — the spec's separate `LoadFailure` mode), for
every collection name and every record sequence, `add` then `save` (all
writes succeeding) then `load` on a fresh instance over the resulting
directory yields that collection structurally equal to the added
records. -/
theorem c1_roundtrip (d0 : Dire) (fs0 : FS) (C : String)
    (items : List Json) (hclean : CleanFS fs0)
    (hnodup : (Assoc.keys fs0).Nodup) :
    Assoc.get?
      ((initDire.load ((d0.add C (.arr items)).save fs0
          (fun _ => true)).2).data) C = some (.arr items) := by
  set d1 := d0.add C (.arr items) with hd1
  have hCmem : C ∈ d1.modifiedCollections :=
    (mem_markCollectionAsModified d0 C C).mpr (Or.inr rfl)
  have hsucc : (saveFiles d1.data (fun _ => true) d1.modifiedCollections fs0).2 = true :=
    saveFiles_all_ok _ _ _ _ (fun x _ => rfl)
  have hfs1 : (d1.save fs0 (fun _ => true)).2 =
      (saveFiles d1.data (fun _ => true) d1.modifiedCollections fs0).1 := rfl
  have hwrap : wrapper d1.data C = .obj [(C, .arr items)] := by
    unfold wrapper
    have : Assoc.get? d1.data C = some (.arr items) := by
      rw [hd1]
      exact Assoc.get?_set_self d0.data C _
    rw [this]
  have hlookup : Assoc.get? (d1.save fs0 (fun _ => true)).2 (.json C) =
      some (.obj [(C, .arr items)]) := by
    rw [hfs1, saveFiles_success_lookup d1.data _ _ fs0 hsucc C hCmem, hwrap]
  have hclean1 : CleanFS (d1.save fs0 (fun _ => true)).2 := by
    rw [hfs1]
    exact saveFiles_clean _ _ _ _ hclean
  have hnodup1 : (Assoc.keys (d1.save fs0 (fun _ => true)).2).Nodup := by
    rw [hfs1]
    exact saveFiles_keys_nodup _ _ _ _ hnodup
  obtain ⟨-, hload⟩ :=
    loadFiles_spec (d1.save fs0 (fun _ => true)).2 [] hclean1 hnodup1
  have : (initDire.load (d1.save fs0 (fun _ => true)).2).data =
      (loadFiles (d1.save fs0 (fun _ => true)).2 []).1 := rfl
  rw [this, hload C, hlookup]
  simp [jsIndexD, jsIndex, Assoc.get?]

/-- C1 witness: a concrete round trip through an initially empty
directory. -/
theorem c1_roundtrip_witness :
    Assoc.get?
      ((initDire.load ((initDire.add "users" (.arr [Json.num 1])).save []
          (fun _ => true)).2).data) "users" = some (.arr [Json.num 1]) :=
  c1_roundtrip initDire [] "users" [Json.num 1]
    (by intro s c h; cases h) (by simp [Assoc.keys])

/-! ## Claim C3: drop then save -/

/-- The C3 scenario after `drop`: fresh store over an empty directory,
`add "pets"` (marking it dirty), then `drop "pets"`.  No file exists
yet, so the unlink fails with the caught missing-file error (`false`
oracle; the oracle value is irrelevant on an absent file). -/
def c3Dropped : Dire × FS :=
  ((initDire.load []).add "pets"
    (.arr [Json.obj [("name", Json.str "Oreo")]])).drop [] "pets" false

/-- The C3 scenario after the subsequent `save()`. -/
def c3Saved : Dire × FS := c3Dropped.1.save c3Dropped.2 (fun _ => true)

/-- C3: the code contradicts the claim when the dropped collection is in
the dirty set.  From a fresh store over an empty directory: `add "pets"`
puts `"pets"` in the dirty set; `drop "pets"` removes the collection and
unlinks its file but leaves the dirty set untouched; `save()` then
iterates the dirty set and rewrites `pets.json` — with content `{}`,
since `JSON.stringify({ pets: undefined })` drops the absent property.
The directory listing contains `pets.json` again, where the claim (and
the repository's own test, which only exercises a clean dirty set)
requires it gone. -/
theorem c3_drop_save_recreates_file :
    Filename.json "pets" ∈ Assoc.keys c3Saved.2 ∧
    Assoc.get? c3Saved.2 (.json "pets") = some (.obj []) :=
  ⟨List.mem_cons_self _ _, rfl⟩

/-! ## Claim C4: the dirty-set invariant over reachable states

A world couples one store instance with its directory.  `Reachable`
closes the constructed-and-loaded initial state under the public
operations (faulting calls leave the state unchanged, as the thrown
`TypeError` precedes any mutation in the source). -/

structure World where
  d : Dire
  fs : FS

/-- The collection's in-memory value. -/
def memView (w : World) (name : String) : Option Json :=
  Assoc.get? w.d.data name

/-- The collection's on-disk value: the wrapped value its file holds
under the collection's key, if the file exists. -/
def diskView (w : World) (name : String) : Option Json :=
  match Assoc.get? w.fs (.json name) with
  | some c => jsIndexD c name
  | none => none

def wAdd (w : World) (name : String) (items : Json) : World :=
  ⟨w.d.add name items, w.fs⟩

def wInsert (w : World) (name : String) (items : Json) : World :=
  match w.d.insert name items with
  | .ok d' => ⟨d', w.fs⟩
  | .error _ => w

def wUpdate (w : World) (name : String) (p : Option (Json → Bool))
    (mutator : Json → Json) : World :=
  match w.d.update name p mutator with
  | .ok d' => ⟨d', w.fs⟩
  | .error _ => w

def wDelete (w : World) (name : String) (p : Option (Json → Bool)) : World :=
  match w.d.delete name p with
  | .ok d' => ⟨d', w.fs⟩
  | .error _ => w

def wDrop (w : World) (name : String) (unlinkOk : Bool) : World :=
  ⟨(w.d.drop w.fs name unlinkOk).1, (w.d.drop w.fs name unlinkOk).2⟩

def wSave (w : World) (writeOk : String → Bool) : World :=
  ⟨(w.d.save w.fs writeOk).1, (w.d.save w.fs writeOk).2⟩

def wLoad (w : World) : World :=
  ⟨w.d.load w.fs, w.fs⟩

/-- States reachable by the public operations from a freshly constructed
store (whose constructor runs `load()`) over a well-formed directory. -/
inductive Reachable : World → Prop where
  | construct (fs : FS) (hc : CleanFS fs) (hn : (Assoc.keys fs).Nodup) :
      Reachable (wLoad ⟨initDire, fs⟩)
  | add {w} (hw : Reachable w) (name : String) (items : Json) :
      Reachable (wAdd w name items)
  | insert {w} (hw : Reachable w) (name : String) (items : Json) :
      Reachable (wInsert w name items)
  | update {w} (hw : Reachable w) (name : String)
      (p : Option (Json → Bool)) (mutator : Json → Json) :
      Reachable (wUpdate w name p mutator)
  | delete {w} (hw : Reachable w) (name : String)
      (p : Option (Json → Bool)) : Reachable (wDelete w name p)
  | drop {w} (hw : Reachable w) (name : String) (unlinkOk : Bool) :
      Reachable (wDrop w name unlinkOk)
  | save {w} (hw : Reachable w) (writeOk : String → Bool) :
      Reachable (wSave w writeOk)
  | load {w} (hw : Reachable w) : Reachable (wLoad w)

/-- The inductive invariant: the directory stays well-formed, and every
collection whose in-memory value differs from its on-disk value is in
the dirty set or absent from memory.  The second disjunct is forced by
`drop`: when its unlink fails on an existing file, the stale file stays
on disk while the collection is gone from memory and nothing marks the
name dirty. -/
def WorldInv (w : World) : Prop :=
  CleanFS w.fs ∧ (Assoc.keys w.fs).Nodup ∧
  ∀ name, memView w name ≠ diskView w name →
    name ∈ w.d.modifiedCollections ∨ memView w name = none

/-! Frame facts for the successful in-memory mutations. -/

theorem insert_ok_frame (d : Dire) (n : String) (items : Json) (d' : Dire)
    (h : d.insert n items = .ok d') :
    (∀ m, m ≠ n → Assoc.get? d'.data m = Assoc.get? d.data m) ∧
    (∀ x, x ∈ d'.modifiedCollections ↔
       x ∈ d.modifiedCollections ∨ x = n) := by
  simp only [Dire.insert] at h
  split at h
  · cases h
    exact ⟨fun m hm => Assoc.get?_set_ne d.data n m _ hm,
           fun x => mem_markCollectionAsModified d n x⟩
  · split at h
    · cases h
      exact ⟨fun m hm => rfl, fun x => mem_markCollectionAsModified d n x⟩
    · cases h

theorem update_ok_frame (d : Dire) (n : String)
    (p : Option (Json → Bool)) (mutator : Json → Json) (d' : Dire)
    (h : d.update n p mutator = .ok d') :
    (∀ m, m ≠ n → Assoc.get? d'.data m = Assoc.get? d.data m) ∧
    (∀ x, x ∈ d'.modifiedCollections ↔
       x ∈ d.modifiedCollections ∨ x = n) := by
  simp only [Dire.update] at h
  split at h
  · cases h
    exact ⟨fun m hm => Assoc.get?_set_ne d.data n m _ hm,
           fun x => mem_markCollectionAsModified d n x⟩
  · cases h

theorem delete_ok_frame (d : Dire) (n : String)
    (p : Option (Json → Bool)) (d' : Dire) (h : d.delete n p = .ok d') :
    (∀ m, m ≠ n → Assoc.get? d'.data m = Assoc.get? d.data m) ∧
    (∀ x, x ∈ d'.modifiedCollections ↔
       x ∈ d.modifiedCollections ∨ x = n) := by
  simp only [Dire.delete] at h
  split at h
  · cases h
    exact ⟨fun m hm => Assoc.get?_set_ne d.data n m _ hm,
           fun x => mem_markCollectionAsModified d n x⟩
  · cases h

/-- A pure in-memory mutation that touches only collection `n` and marks
it dirty preserves the invariant. -/
theorem worldInv_mut (w : World) (inv : WorldInv w) (n : String)
    (d' : Dire)
    (hother : ∀ m, m ≠ n → Assoc.get? d'.data m = Assoc.get? w.d.data m)
    (hdirty : ∀ x, x ∈ d'.modifiedCollections ↔
       x ∈ w.d.modifiedCollections ∨ x = n) :
    WorldInv ⟨d', w.fs⟩ := by
  obtain ⟨hc, hnod, hinv⟩ := inv
  refine ⟨hc, hnod, fun name hne => ?_⟩
  by_cases hn2 : name = n
  · exact Or.inl ((hdirty name).mpr (Or.inr hn2))
  · have hmem : memView ⟨d', w.fs⟩ name = memView w name := hother name hn2
    have hdisk : diskView ⟨d', w.fs⟩ name = diskView w name := rfl
    rw [hmem, hdisk] at hne
    rcases hinv name hne with h | h
    · exact Or.inl ((hdirty name).mpr (Or.inl h))
    · exact Or.inr (hmem.trans h)

theorem worldInv_wAdd (w : World) (inv : WorldInv w) (name : String)
    (items : Json) : WorldInv (wAdd w name items) :=
  worldInv_mut w inv name (w.d.add name items)
    (fun m hm => Assoc.get?_set_ne w.d.data name m items hm)
    (fun x => mem_markCollectionAsModified w.d name x)

theorem worldInv_wInsert (w : World) (inv : WorldInv w) (name : String)
    (items : Json) : WorldInv (wInsert w name items) := by
  unfold wInsert
  cases h : w.d.insert name items with
  | ok d' =>
    obtain ⟨h1, h2⟩ := insert_ok_frame w.d name items d' h
    exact worldInv_mut w inv name d' h1 h2
  | error e => exact inv

theorem worldInv_wUpdate (w : World) (inv : WorldInv w) (name : String)
    (p : Option (Json → Bool)) (mutator : Json → Json) :
    WorldInv (wUpdate w name p mutator) := by
  unfold wUpdate
  cases h : w.d.update name p mutator with
  | ok d' =>
    obtain ⟨h1, h2⟩ := update_ok_frame w.d name p mutator d' h
    exact worldInv_mut w inv name d' h1 h2
  | error e => exact inv

theorem worldInv_wDelete (w : World) (inv : WorldInv w) (name : String)
    (p : Option (Json → Bool)) : WorldInv (wDelete w name p) := by
  unfold wDelete
  cases h : w.d.delete name p with
  | ok d' =>
    obtain ⟨h1, h2⟩ := delete_ok_frame w.d name p d' h
    exact worldInv_mut w inv name d' h1 h2
  | error e => exact inv

theorem worldInv_wDrop (w : World) (inv : WorldInv w) (name : String)
    (unlinkOk : Bool) : WorldInv (wDrop w name unlinkOk) := by
  obtain ⟨hc, hnod, hinv⟩ := inv
  refine ⟨?_, ?_, ?_⟩
  · cases unlinkOk with
    | true =>
      intro s c hmem
      exact hc s c (Assoc.mem_erase w.fs _ _ hmem)
    | false => exact hc
  · cases unlinkOk with
    | true => exact Assoc.keys_erase_nodup w.fs _ hnod
    | false => exact hnod
  · intro n2 hne
    by_cases hn2 : n2 = name
    · subst hn2
      refine Or.inr ?_
      show Assoc.get? (Assoc.erase w.d.data n2) n2 = none
      exact Assoc.get?_erase_self w.d.data n2
    · have hm : memView (wDrop w name unlinkOk) n2 = memView w n2 :=
        Assoc.get?_erase_ne w.d.data name n2 hn2
      have hd : diskView (wDrop w name unlinkOk) n2 = diskView w n2 := by
        cases unlinkOk with
        | true =>
          show (match Assoc.get? (Assoc.erase w.fs (.json name))
                  (.json n2) with
                | some c => jsIndexD c n2
                | none => none) = diskView w n2
          rw [Assoc.get?_erase_ne w.fs _ _
            (fun h => hn2 (Filename.json.inj h))]
          rfl
        | false => rfl
      rw [hm, hd] at hne
      rcases hinv n2 hne with h | h
      · exact Or.inl h
      · exact Or.inr (hm.trans h)

/-- Unwrapping a written wrapper recovers the in-memory value (also when
the collection is absent: the wrapper is `{}` and the lookup is
`undefined`). -/
theorem jsIndexD_wrapper (data : Assoc String Json) (n : String) :
    jsIndexD (wrapper data n) n = Assoc.get? data n := by
  unfold wrapper
  cases h : Assoc.get? data n with
  | some v => simp [jsIndexD, jsIndex, Assoc.get?]
  | none => rfl

/-- The operation `save` never touches the in-memory data. -/
theorem save_fst_data (d : Dire) (fs : FS) (writeOk : String → Bool) :
    (d.save fs writeOk).1.data = d.data := by
  cases h : (saveFiles d.data writeOk d.modifiedCollections fs).2 <;>
    simp [Dire.save, h]

/-- On a failed flush loop the instance is left unchanged. -/
theorem save_fst_fail (d : Dire) (fs : FS) (writeOk : String → Bool)
    (h : (saveFiles d.data writeOk d.modifiedCollections fs).2 = false) :
    (d.save fs writeOk).1 = d := by
  simp [Dire.save, h]

/-- On a completed flush loop the dirty set is cleared. -/
theorem save_fst_success (d : Dire) (fs : FS) (writeOk : String → Bool)
    (h : (saveFiles d.data writeOk d.modifiedCollections fs).2 = true) :
    (d.save fs writeOk).1.modifiedCollections = [] := by
  simp [Dire.save, h]

theorem worldInv_wSave (w : World) (inv : WorldInv w)
    (writeOk : String → Bool) : WorldInv (wSave w writeOk) := by
  obtain ⟨hc, hnod, hinv⟩ := inv
  have hfs : (wSave w writeOk).fs =
      (saveFiles w.d.data writeOk w.d.modifiedCollections w.fs).1 := by
    show (w.d.save w.fs writeOk).2 = _
    cases h : (saveFiles w.d.data writeOk w.d.modifiedCollections w.fs).2 <;>
      simp [Dire.save, h]
  refine ⟨?_, ?_, ?_⟩
  · rw [hfs]
    exact saveFiles_clean _ _ _ _ hc
  · rw [hfs]
    exact saveFiles_keys_nodup _ _ _ _ hnod
  · intro name hne
    have hdata : (wSave w writeOk).d.data = w.d.data :=
      save_fst_data w.d w.fs writeOk
    have hmem2 : memView (wSave w writeOk) name = memView w name := by
      unfold memView
      rw [hdata]
    cases hsucc : (saveFiles w.d.data writeOk w.d.modifiedCollections w.fs).2 with
    | true =>
      by_cases hdm : name ∈ w.d.modifiedCollections
      · exfalso
        apply hne
        have hlook : Assoc.get? (wSave w writeOk).fs (.json name) =
            some (wrapper w.d.data name) := by
          rw [hfs]
          exact saveFiles_success_lookup _ _ _ _ hsucc name hdm
        unfold memView diskView
        rw [hdata, hlook]
        exact (jsIndexD_wrapper w.d.data name).symm
      · have huntouched : Assoc.get? (wSave w writeOk).fs (.json name) =
            Assoc.get? w.fs (.json name) := by
          rw [hfs]
          exact saveFiles_untouched _ _ _ _ _
            (fun x hx h => hdm (by cases Filename.json.inj h; exact hx))
        have hne0 : memView w name ≠ diskView w name := by
          intro heq
          apply hne
          unfold memView diskView
          rw [hdata, huntouched]
          exact heq
        rcases hinv name hne0 with h | h
        · exact absurd h hdm
        · exact Or.inr (hmem2.trans h)
    | false =>
      have hfst : (wSave w writeOk).d = w.d := save_fst_fail w.d w.fs writeOk hsucc
      by_cases hdm : name ∈ w.d.modifiedCollections
      · refine Or.inl ?_
        rw [hfst]
        exact hdm
      · have huntouched : Assoc.get? (wSave w writeOk).fs (.json name) =
            Assoc.get? w.fs (.json name) := by
          rw [hfs]
          exact saveFiles_untouched _ _ _ _ _
            (fun x hx h => hdm (by cases Filename.json.inj h; exact hx))
        have hne0 : memView w name ≠ diskView w name := by
          intro heq
          apply hne
          unfold memView diskView
          rw [hdata, huntouched]
          exact heq
        rcases hinv name hne0 with h | h
        · exact absurd h hdm
        · exact Or.inr (hmem2.trans h)

theorem worldInv_wLoad (w : World) (inv : WorldInv w) :
    WorldInv (wLoad w) := by
  obtain ⟨hc, hnod, hinv⟩ := inv
  obtain ⟨-, hspec⟩ := loadFiles_spec w.fs w.d.data hc hnod
  refine ⟨hc, hnod, fun name hne => ?_⟩
  have hmem : memView (wLoad w) name =
      Assoc.get? (loadFiles w.fs w.d.data).1 name := rfl
  cases hfile : Assoc.get? w.fs (.json name) with
  | some c =>
    exfalso
    apply hne
    have h1 : memView (wLoad w) name = jsIndexD c name := by
      rw [hmem, hspec name, hfile]
    have h2 : diskView (wLoad w) name = jsIndexD c name := by
      unfold diskView wLoad
      rw [hfile]
    exact h1.trans h2.symm
  | none =>
    have h1 : memView (wLoad w) name = memView w name := by
      rw [hmem, hspec name, hfile]
      rfl
    have h2 : diskView (wLoad w) name = diskView w name := rfl
    rw [h1, h2] at hne
    rcases hinv name hne with h | h
    · exact Or.inl h
    · exact Or.inr (h1.trans h)

theorem worldInv_construct (fs : FS) (hc : CleanFS fs)
    (hn : (Assoc.keys fs).Nodup) : WorldInv (wLoad ⟨initDire, fs⟩) := by
  obtain ⟨-, hspec⟩ := loadFiles_spec fs ([] : Assoc String Json) hc hn
  refine ⟨hc, hn, fun name hne => ?_⟩
  exfalso
  apply hne
  have hmem : memView (wLoad ⟨initDire, fs⟩) name =
      Assoc.get? (loadFiles fs []).1 name := rfl
  cases hfile : Assoc.get? fs (.json name) with
  | some c =>
    have h1 : memView (wLoad ⟨initDire, fs⟩) name = jsIndexD c name := by
      rw [hmem, hspec name, hfile]
    have h2 : diskView (wLoad ⟨initDire, fs⟩) name = jsIndexD c name := by
      unfold diskView wLoad
      rw [hfile]
    exact h1.trans h2.symm
  | none =>
    have h1 : memView (wLoad ⟨initDire, fs⟩) name = none := by
      rw [hmem, hspec name, hfile]
      rfl
    have h2 : diskView (wLoad ⟨initDire, fs⟩) name = none := by
      unfold diskView wLoad
      rw [hfile]
    exact h1.trans h2.symm

/-- The inductive invariant holds in every reachable state. -/
theorem reachable_worldInv (w : World) (hw : Reachable w) : WorldInv w := by
  induction hw with
  | construct fs hc hn => exact worldInv_construct fs hc hn
  | add hw name items ih => exact worldInv_wAdd _ ih name items
  | insert hw name items ih => exact worldInv_wInsert _ ih name items
  | update hw name p mutator ih => exact worldInv_wUpdate _ ih name p mutator
  | delete hw name p ih => exact worldInv_wDelete _ ih name p
  | drop hw name unlinkOk ih => exact worldInv_wDrop _ ih name unlinkOk
  | save hw writeOk ih => exact worldInv_wSave _ ih writeOk
  | load hw ih => exact worldInv_wLoad _ ih

/-- C4 counterexample: the claimed equivalence fails on the code.  The
state reached by `add "a" []`, `save()` (all writes succeeding), then
`add "a" []` again has `"a"` in the dirty set even though its in-memory
value equals its on-disk value — `add` and `update` mark dirty
unconditionally, so the dirty set is not exactly the changed
collections. -/
theorem c4_counterexample :
    ∃ w, Reachable w ∧ "a" ∈ w.d.modifiedCollections ∧
      memView w "a" = diskView w "a" := by
  refine ⟨wAdd (wSave (wAdd (wLoad ⟨initDire, []⟩) "a" (.arr []))
      (fun _ => true)) "a" (.arr []), ?_, ?_, ?_⟩
  · exact Reachable.add (Reachable.save (Reachable.add
      (Reachable.construct [] (fun s c h => absurd h (List.not_mem_nil _))
        List.nodup_nil) "a" (.arr [])) (fun _ => true)) "a" (.arr [])
  · show "a" ∈ ["a"]
    exact List.mem_singleton.mpr rfl
  · rfl

/-- C4 amended: in every reachable state the dirty set over-approximates
the pending changes — every collection that is present in memory and
whose in-memory value differs from its on-disk file is in the dirty
set.  The converse direction is refuted above, and the presence
hypothesis is forced by `drop`: a drop whose `unlink` fails on an
existing file (the source catches every unlink error) leaves a stale
file on disk with the collection gone from memory and nothing marking
the name dirty. -/
theorem c4_changed_implies_dirty (w : World) (hw : Reachable w)
    (name : String) (hne : memView w name ≠ diskView w name)
    (hpresent : memView w name ≠ none) :
    name ∈ w.d.modifiedCollections := by
  rcases (reachable_worldInv w hw).2.2 name hne with h | h
  · exact h
  · exact absurd h hpresent

/-- C4 amended witness: right after `add "a"` over an empty directory the
in-memory value differs from disk, and the theorem places `"a"` in the
dirty set. -/
theorem c4_changed_implies_dirty_witness :
    "a" ∈ (wAdd (wLoad ⟨initDire, []⟩) "a"
      (.arr [Json.num 3])).d.modifiedCollections :=
  c4_changed_implies_dirty _
    (Reachable.add (Reachable.construct []
        (fun s c h => absurd h (List.not_mem_nil _)) List.nodup_nil)
      "a" (.arr [Json.num 3]))
    "a" (fun h => Option.noConfusion h) (fun h => Option.noConfusion h)

/-! ## Claim C8: reference semantics of reads

In JavaScript the arrays in `this.data` hold references to record
objects, and `collection.filter(...)` builds a NEW array holding the SAME
references.  To settle the aliasing claim the heap is made explicit:
records live at `Nat` addresses, a collection is a sequence of addresses,
and the query operations are the same `filter` / `find` bodies evaluated
through the heap. -/

/-- Dereference an address (a dangling address reads as `null`; never
exercised here). -/
def deref (heap : List Json) (a : Nat) : Json :=
  (heap.get? a).getD Json.null

/-- In-place mutation of the record stored at an address — what a caller
does to a record it got back from `find`, and what `update`'s mutator
does. -/
def heapWrite (heap : List Json) (a : Nat) (v : Json) : List Json :=
  heap.set a v

/-- Embedding of `find` through the heap: `collection.filter(filterFunction)` — a new
address sequence, sharing the record addresses. -/
def hfind (heap : List Json) (hdata : Assoc String (List Nat))
    (name : String) (p : Json → Bool) : Option (List Nat) :=
  match Assoc.get? hdata name with
  | some addrs => some (addrs.filter (fun a => p (deref heap a)))
  | none => none

/-- Embedding of `findOne` through the heap: `collection.find(filterFunction)`. -/
def hfindOne (heap : List Json) (hdata : Assoc String (List Nat))
    (name : String) (p : Json → Bool) : Option (Option Nat) :=
  match Assoc.get? hdata name with
  | some addrs => some (addrs.find? (fun a => p (deref heap a)))
  | none => none

/-- The record sequence a collection presents: its addresses read through
the heap. -/
def collView (heap : List Json) (hdata : Assoc String (List Nat))
    (name : String) : Option (List Json) :=
  match Assoc.get? hdata name with
  | some addrs => some (addrs.map (deref heap))
  | none => none

/-- C8 counterexample: `find` returns the store's own record reference,
not a copy — on a one-record collection, the match-all `find` returns
exactly the collection's address, and mutating the record through that
address changes the record sequence the store presents.  "Mutating a
returned result never changes the store's state" is false at this
input. -/
theorem c8_counterexample :
    hfind [Json.obj [("age", Json.num 29)]] [("users", [0])] "users"
        (fun _ => true) = some [0] ∧
    Assoc.get? [("users", [0])] "users" = some [0] ∧
    collView (heapWrite [Json.obj [("age", Json.num 29)]] 0
        (Json.obj [("age", Json.num 99)])) [("users", [0])] "users" ≠
      collView [Json.obj [("age", Json.num 29)]] [("users", [0])] "users" := by
  refine ⟨rfl, rfl, ?_⟩
  intro h
  simp [collView, heapWrite, deref, Assoc.get?] at h

/-- C8 amended: every read returns a new sequence whose elements are the
store's live record references themselves (every returned address is one
of the collection's own addresses — a shallow copy, not a deep one), so
mutating the returned sequence does not affect the store but mutating a
returned record in place does. -/
theorem c8_reads_alias_records (heap : List Json)
    (hdata : Assoc String (List Nat)) (name : String) (p : Json → Bool)
    (addrs l : List Nat) (h : Assoc.get? hdata name = some addrs)
    (hf : hfind heap hdata name p = some l) :
    List.Sublist l addrs ∧
    (∀ a, hfindOne heap hdata name p = some (some a) → a ∈ addrs) := by
  unfold hfind at hf
  rw [h] at hf
  constructor
  · cases hf
    exact List.filter_sublist addrs
  · intro a ha
    unfold hfindOne at ha
    rw [h] at ha
    have : addrs.find? (fun a => p (deref heap a)) = some a :=
      Option.some.inj ha
    exact List.mem_of_find?_eq_some this

/-- C8 amended witness: on the concrete one-record collection the
returned sequence's single element is the collection's own address. -/
theorem c8_reads_alias_records_witness :
    List.Sublist [0] [0] ∧
    (∀ a, hfindOne [Json.obj [("age", Json.num 29)]] [("users", [0])]
        "users" (fun _ => true) = some (some a) → a ∈ [0]) :=
  c8_reads_alias_records [Json.obj [("age", Json.num 29)]]
    [("users", [0])] "users" (fun _ => true) [0] [0] rfl rfl
